import Mathlib

/-
Verification of the workspace file index in
packages/nx/src/native/workspace/context.rs.

The Rust module is shallowly embedded: the shared store of the FilesWorker
becomes an explicit value threaded through the operations, the filesystem and
the two external collaborators (the hashing primitive `hash` and the walker
`nx_walker`) become function/list parameters, and `HashMap` becomes an
association list with insert-or-replace semantics.  Machine-level concerns
(the mutex, rayon parallelism) are discussed at each definition.
-/

namespace Nx

/-- Byte sequences: file contents as read from disk by `std::fs::read` or
produced by the walker. -/
abbrev ByteSeq := List Nat

/-- A workspace file record `(file, hash)` — `FileData` in the Rust source. -/
abbrev FileData := String × String

/-- The FilesWorker store: `type Files = Vec<(PathBuf, String)>` (context.rs
line 32).  Paths are already-normalized workspace-relative strings. -/
abbrev Files := List (String × String)

/-- Code-point view of a string.  Where the source compares or concatenates
the bytes of strings (`PathBuf` ordering, `String::as_bytes`), we work on the
code-point list; UTF-8 encoding preserves both order and concatenation, so
the two views agree. -/
def strBytes (s : String) : List Nat := s.data.map Char.toNat

/-- The order `Vec::par_sort` uses on store entries: lexicographic on the
`(path, hash)` pair, path component first. -/
def fileLE (x y : String × String) : Prop :=
  x.1.data < y.1.data ∨ (x.1.data = y.1.data ∧ x.2.data ≤ y.2.data)

instance : DecidableRel fileLE := fun x y => by unfold fileLE; infer_instance

instance : IsTrans (String × String) fileLE := by
  constructor
  intro a b c hab hbc
  rcases hab with h1 | ⟨e1, le1⟩ <;> rcases hbc with h2 | ⟨e2, le2⟩
  · exact Or.inl (lt_trans h1 h2)
  · exact Or.inl (e2 ▸ h1)
  · exact Or.inl (e1 ▸ h2)
  · exact Or.inr ⟨e1.trans e2, le_trans le1 le2⟩

instance : IsTotal (String × String) fileLE := by
  constructor
  intro a b
  rcases lt_trichotomy a.1.data b.1.data with h | h | h
  · exact Or.inl (Or.inl h)
  · rcases le_total a.2.data b.2.data with h2 | h2
    · exact Or.inl (Or.inr ⟨h, h2⟩)
    · exact Or.inr (Or.inr ⟨h.symm, h2⟩)
  · exact Or.inr (Or.inl h)

/-- `workspace_files.par_sort()`.  `par_sort` is a comparison sort for the
total order `fileLE`, which is antisymmetric up to equality of the pairs, so
every comparison sort produces the same output list; insertion sort is
therefore an exact model of it. -/
def sortFiles (l : Files) : Files := List.insertionSort fileLE l

/-- Model of `HashMap<String, β>` insertion (`insert`, or
`entry(k).and_modify(|e| *e = v).or_insert(v)`): the association list keeps
one entry per key; an existing binding of the key has its value replaced in
place, a fresh key is appended. -/
def insertA {β : Type} : List (String × β) → String → β → List (String × β)
  | [], k, v => [(k, v)]
  | e :: m, k, v => if e.1 = k then (k, v) :: m else e :: insertA m k v

/-- Model of `HashMap::remove`. -/
def eraseA {β : Type} : List (String × β) → String → List (String × β)
  | [], _ => []
  | e :: m, k => if e.1 = k then eraseA m k else e :: eraseA m k

/-- Key membership, `HashMap::contains_key` / `get_mut(k).is_some()`. -/
def containsA {β : Type} (m : List (String × β)) (k : String) : Bool :=
  m.any (fun e => decide (e.1 = k))

/-- `HashMap::get_mut(k)` followed by an in-place modification of the value.
(On the unique-key lists the code builds, at most one entry has key `k`.) -/
def modifyA {β : Type} : List (String × β) → String → (β → β) → List (String × β)
  | [], _, _ => []
  | e :: m, k, f => if e.1 = k then (e.1, f e.2) :: modifyA m k f else e :: modifyA m k f

/-- Look up a key, `HashMap::get`. -/
def lookupA {β : Type} : List (String × β) → String → Option β
  | [], _ => none
  | e :: m, k => if e.1 = k then some e.2 else lookupA m k

/-- Collect a pair sequence into a `HashMap`
(`files.drain(..).collect::<HashMap<_,_>>()`, `collect::<HashMap<_,_>>()`):
later pairs overwrite earlier ones with the same key. -/
def toMapA {β : Type} (l : List (String × β)) : List (String × β) :=
  l.foldl (fun m e => insertA m e.1 e.2) []

/-- `FilesWorker::gather_files` (context.rs lines 35-69).  If the workspace
root does not exist the worker is `FilesWorker(None)` and no population
thread is spawned.  Otherwise the population thread hashes every
`(path, content)` pair delivered by `nx_walker` (the walker is a black-box
collaborator, modelled by the `walk` parameter), extends the empty store with
the results and sorts it.  The thread holds the store lock for its whole
write phase, so the store a reader can observe is either empty or the full
sorted result modelled here. -/
def gather_files (h : ByteSeq → String) (rootExists : Bool)
    (walk : List (String × ByteSeq)) : Option Files :=
  if rootExists then
    some (sortFiles (walk.map (fun pc => (pc.1, h pc.2))))
  else
    none

/-- `FilesWorker::get_files` (context.rs lines 71-97): with no worker the
result is `vec![]`; otherwise a copy of the store is returned
(`to_normalized_string` is the identity on our already-normalized path
strings). -/
def get_files (w : Option Files) : List FileData :=
  match w with
  | some files => files.map (fun ph => (ph.1, ph.2))
  | none => []

/-- The blocking condition of `get_files` (context.rs line 77): with no
worker the call returns immediately; with a worker it waits on the condition
variable exactly when the store is empty at lock acquisition. -/
def get_files_waits (w : Option Files) : Bool :=
  match w with
  | some files => files.length == 0
  | none => false

/-- Body of `FilesWorker::update_files` once the worker exists (context.rs
lines 110-139): drain the store into a map keyed by path, remove the deleted
paths, re-read and re-hash each updated path (a failed read — `fs p = none` —
is silently skipped), merge the new hashes into the map, and rebuild the
store sorted.  Returns the new store and `updated_files_hashes`.  The rayon
`par_iter` only parallelizes the pure per-path read+hash, so the sequential
`filterMap` has the same value; `updated_files_hashes` is a `HashMap`, whose
iteration order is immaterial below because its keys are distinct. -/
def update_files_store (h : ByteSeq → String) (fs : String → Option ByteSeq)
    (files : Files) (updated deleted : List String) : Files × Files :=
  let map0 := toMapA files
  let map1 := deleted.foldl (fun m d => eraseA m d) map0
  let updated_files_hashes := updated.filterMap
    (fun p => (fs p).map (fun c => (p, h c)))
  let map2 := updated_files_hashes.foldl (fun m fh => insertA m fh.1 fh.2) map1
  (sortFiles map2, updated_files_hashes)

/-- `FilesWorker::update_files` (context.rs lines 99-140): with no worker
(`FilesWorker(None)`, missing workspace root) the call returns an empty map
and touches nothing. -/
def update_files (h : ByteSeq → String) (fs : String → Option ByteSeq)
    (w : Option Files) (updated deleted : List String) : Option Files × Files :=
  match w with
  | none => (none, [])
  | some files =>
    let r := update_files_store h fs files updated deleted
    (some r.1, r.2)

/-- State of the worker's synchronization: the store contents together with
the number of callers currently blocked in `cvar.wait` (context.rs line 79). -/
structure WorkerState where
  files : Files
  waiters : Nat
deriving DecidableEq

/-- The population thread body (context.rs lines 48-66) as a step on
`WorkerState`: under the lock it extends the store with the hashed walk
results, sorts, and calls `cvar.notify_all()`, which wakes every caller
currently blocked on the condition variable — `waiters` drops to zero.  The
`parking_lot` condition variable delivers no signal to callers that are not
yet waiting. -/
def populate (h : ByteSeq → String) (walk : List (String × ByteSeq))
    (s : WorkerState) : WorkerState :=
  { files := sortFiles (s.files ++ walk.map (fun pc => (pc.1, h pc.2)))
    waiters := 0 }

/-- A `get_files` call arriving at the lock (context.rs lines 75-80): if the
store is empty the caller starts waiting on the condition variable (second
component `true`), otherwise it proceeds and copies the store. -/
def read_enter (s : WorkerState) : WorkerState × Bool :=
  if s.files.length == 0 then ({ s with waiters := s.waiters + 1 }, true)
  else (s, false)

/-- Modelled from the spec: `config_files::glob_files` is code of this
repository that is not under src/ (only its caller is).  Spec §4.2: it
applies include-glob matching then exclude-glob filtering to the snapshot and
keeps matches in snapshot order.  The include/exclude matching itself is an
out-of-scope black box (spec §1), so it is the parameter `mt`: `glob_files`
keeps, in snapshot order, exactly the records whose path matches. -/
def glob_files (mt : String → Bool) (files : List FileData) : List FileData :=
  files.filter (fun f => mt f.1)

/-- `WorkspaceContext::hash_files_matching_glob` (context.rs lines 185-199):
filter the snapshot by the globs, then hash the byte concatenation of the
matched records' digest strings, in snapshot order.  The hashing collaborator
`hash` is code of this repository outside src/; per spec §6 it is a pure
deterministic function of the bytes, the parameter `h`. -/
def hash_files_matching_glob (h : ByteSeq → String) (mt : String → Bool)
    (files : List FileData) : String :=
  h (((glob_files mt files).map (fun f => strBytes f.2)).flatten)

/-- Segment-splitting helper for normalized paths: accumulates the current
segment (reversed) while scanning for the separator. -/
def splitSegsAux (cur : List Char) : List Char → List (List Char)
  | [] => [cur.reverse]
  | c :: cs => if c = '/' then cur.reverse :: splitSegsAux [] cs else splitSegsAux (c :: cur) cs

/-- The segments of a normalized path, as code-point lists. -/
def splitSegs (s : String) : List (List Char) := splitSegsAux [] s.data

/-- Does a segment list lead another: the first is a leading piece of the
second (so a project root owns every path below it, and itself). -/
def segsLead : List (List Char) → List (List Char) → Bool
  | [], _ => true
  | _ :: _, [] => false
  | r :: rs, p :: ps => decide (r = p) && segsLead rs ps

/-- Modelled from the spec: `find_project_for_path` (crate module
`project_graph::utils`) is code of this repository that is not under src/.
Spec §4.3 and §6: `findOwningProject(path, mapping) -> Option<ProjectId>`
classifies a path by longest-prefix match against the project-root mapping:
among the roots owning the path the one with the most segments wins and its
project id is returned; `none` when no root owns the path. -/
def find_project_for_path (path : String) (m : List (String × String)) : Option String :=
  let owners := m.filter (fun rm => segsLead (splitSegs rm.1) (splitSegs path))
  (owners.foldl (fun best rm =>
    match best with
    | none => some rm
    | some b => if (splitSegs b.1).length < (splitSegs rm.1).length then some rm else some b)
    none).map (fun rm => rm.2)

/-- `ProjectFiles = HashMap<String, Vec<FileData>>`: association list from
project name to that project's file records. -/
abbrev ProjectFiles := List (String × List FileData)

/-- `project_files.iter_mut().find(|f| f.file == file)` then overwrite the
hash, else `push` (context.rs lines 260-266): replace the hash of the first
record carrying the path, or append a new record at the end. -/
def updateRecord : List FileData → String → String → List FileData
  | [], file, hsh => [(file, hsh)]
  | f :: fs, file, hsh =>
    if f.1 = file then (file, hsh) :: fs else f :: updateRecord fs file hsh

/-- `iter().position(|f| f.file == deleted_file)` then `remove(pos)`
(context.rs lines 284-287): drop the first record carrying the path, if
any. -/
def removeRecord : List FileData → String → List FileData
  | [], _ => []
  | f :: fs, file => if f.1 = file then fs else f :: removeRecord fs file

/-- One iteration of the updated-files loop of
`WorkspaceContext::update_project_files` (context.rs lines 253-274) on the
state (project file map, global files map): route the pair to the owning
project when `find_project_for_path` names one and that project has an entry
in the map (`get_mut` succeeds), otherwise insert-or-overwrite it in the
global map. -/
def applyUpdatedFile (m : List (String × String))
    (st : ProjectFiles × Files) (u : String × String) : ProjectFiles × Files :=
  match find_project_for_path u.1 m with
  | some p =>
    if containsA st.1 p then
      (modifyA st.1 p (fun fl => updateRecord fl u.1 u.2), st.2)
    else
      (st.1, insertA st.2 u.1 u.2)
  | none => (st.1, insertA st.2 u.1 u.2)

/-- One iteration of the deleted-files loop (context.rs lines 280-294):
remove the path from the owning project's list when `get_mut` succeeds, and
independently from the global map when present there. -/
def applyDeletedFile (m : List (String × String))
    (st : ProjectFiles × Files) (d : String) : ProjectFiles × Files :=
  let pf :=
    match find_project_for_path d m with
    | some p =>
      if containsA st.1 p then modifyA st.1 p (fun fl => removeRecord fl d) else st.1
    | none => st.1
  let g := if containsA st.2 d then eraseA st.2 d else st.2
  (pf, g)

/-- Partition part of `WorkspaceContext::update_project_files` (context.rs
lines 232-312): clone the caller's project file map, collect the caller's
global files into a map, fold the updated-files loop then the deleted-files
loop, and return the new project file map together with the remaining global
records (`non_project_files`).  The iteration orders Rust leaves unspecified
(the `updated_files` map, the final global map) are fixed here by the list
order; the properties proved below are order-independent. -/
def update_project_files (m : List (String × String)) (project_files : ProjectFiles)
    (global_files : List FileData) (updated : List (String × String))
    (deleted : List String) : ProjectFiles × List FileData :=
  let global0 := global_files.foldl (fun g f => insertA g f.1 f.2) []
  let st1 := updated.foldl (applyUpdatedFile m) (project_files, global0)
  let st2 := deleted.foldl (applyDeletedFile m) st1
  (st2.1, st2.2)

/-- How `update_project_files` routes a path: to the owning project by
longest-prefix match when that project has an entry in the project file map
(whose key list is `ks`), otherwise to the global bucket (`none`). -/
def routeOf (m : List (String × String)) (ks : List String) (f : String) : Option String :=
  match find_project_for_path f m with
  | some p => if p ∈ ks then some p else none
  | none => none

/-- Well-formedness of a partition state with project key list `ks`: the
project map has exactly the keys `ks`, each project's list is duplicate-free
on paths and contains only paths routed to that project, and the global map
is duplicate-free on paths and contains only globally-routed paths. -/
def WFState (m : List (String × String)) (ks : List String)
    (st : ProjectFiles × Files) : Prop :=
  st.1.map Prod.fst = ks
  ∧ (∀ e ∈ st.1, (e.2.map Prod.fst).Nodup ∧ ∀ fd ∈ e.2, routeOf m ks fd.1 = some e.1)
  ∧ (st.2.map Prod.fst).Nodup
  ∧ (∀ fd ∈ st.2, routeOf m ks fd.1 = none)

/-- A path is present somewhere in a partition state: in some project's list
or in the global bucket. -/
def InPart (st : ProjectFiles × Files) (f : String) : Prop :=
  (∃ e ∈ st.1, ∃ hh, (f, hh) ∈ e.2) ∨ ∃ hh, (f, hh) ∈ st.2

/-- A heap cell behind one of the napi `External` references that
`update_project_files` receives and returns. -/
inductive HeapVal
  | projMap (v : ProjectFiles)
  | fileList (v : List FileData)
deriving DecidableEq

/-- The `External` heap: allocated cells in order; a reference is an index,
and `External::new` appends a fresh cell. -/
abbrev Heap := List HeapVal

/-- Dereference an `External<ProjectFiles>`. -/
def readProjMap (hp : Heap) (r : Nat) : Option ProjectFiles :=
  match hp.get? r with
  | some (HeapVal.projMap v) => some v
  | _ => none

/-- Dereference an `External<Vec<FileData>>`. -/
def readFileList (hp : Heap) (r : Nat) : Option (List FileData) :=
  match hp.get? r with
  | some (HeapVal.fileList v) => some v
  | _ => none

/-- `WorkspaceContext::update_project_files` at the `External` boundary
(context.rs lines 236-247 and 296-311): read the caller's `project_files`
and `global_files` through their references, copy them
(`project_files.clone()` on line 243, the `iter().map(..).collect()` over
`global_files` on lines 244-247), compute the new partition from the copies,
and allocate three fresh `External`s (`External::new`, lines 307-309) for the
new project map, the new global list and the refreshed snapshot.  Returns the
new heap, the three fresh references, and the `file_map` value (built from
further clones, lines 301-305). -/
def update_project_files_ext (hp : Heap) (pfRef gfRef : Nat)
    (m : List (String × String)) (updated : List (String × String))
    (deleted : List String) (snapshot : List FileData) :
    Option (Heap × (Nat × Nat × Nat) × (ProjectFiles × List FileData)) :=
  match readProjMap hp pfRef, readFileList hp gfRef with
  | some pf, some gf =>
    let r := update_project_files m pf gf updated deleted
    let hp3 := hp ++ [HeapVal.projMap r.1, HeapVal.fileList r.2, HeapVal.fileList snapshot]
    some (hp3, (hp.length, hp.length + 1, hp.length + 2), r)
  | _, _ => none

/-- A concrete stand-in for the hashing collaborator, used only in closed
instance checks: pure and deterministic like the real `hash`. -/
def hModel (b : ByteSeq) : String := String.mk (List.replicate b.length 'x')

/-- A concrete stand-in filesystem for closed instance checks. -/
def fsModel (p : String) : Option ByteSeq :=
  if p = "bad.ts" then none else some [1, 2]

/-! Helper lemmas: the sort, the association-map model, and folds. -/

theorem sortFiles_perm (l : Files) : (sortFiles l).Perm l :=
  List.perm_insertionSort fileLE l

theorem sortFiles_sorted (l : Files) : List.Sorted fileLE (sortFiles l) :=
  List.sorted_insertionSort fileLE l

theorem sortFiles_eq_of_sorted {l : Files} (h : List.Sorted fileLE l) : sortFiles l = l :=
  h.insertionSort_eq

theorem mem_sortFiles {l : Files} {e : String × String} : e ∈ sortFiles l ↔ e ∈ l :=
  (sortFiles_perm l).mem_iff

theorem keys_sortFiles_nodup {l : Files} (h : (l.map Prod.fst).Nodup) :
    ((sortFiles l).map Prod.fst).Nodup :=
  (((sortFiles_perm l).map Prod.fst).nodup_iff).mpr h

theorem foldl_preserve {α : Type _} {β : Type _} {P : α → Prop} {step : α → β → α} :
    ∀ (l : List β), (∀ a b, b ∈ l → P a → P (step a b)) → ∀ a, P a → P (l.foldl step a)
  | [], _, _, ha => ha
  | b :: l, h, a, ha =>
    foldl_preserve l (fun a' b' hb' => h a' b' (List.mem_cons_of_mem _ hb'))
      (step a b) (h a b (List.mem_cons_self _ _) ha)

theorem mem_insertA {β : Type} {m : List (String × β)} {k : String} {v : β} {e : String × β}
    (h : e ∈ insertA m k v) : e ∈ m ∨ e = (k, v) := by
  induction m with
  | nil =>
    simp only [insertA, List.mem_singleton] at h
    exact Or.inr h
  | cons a m ih =>
    by_cases hk : a.1 = k
    · simp only [insertA, if_pos hk, List.mem_cons] at h
      rcases h with h | h
      · exact Or.inr h
      · exact Or.inl (List.mem_cons_of_mem _ h)
    · simp only [insertA, if_neg hk, List.mem_cons] at h
      rcases h with h | h
      · exact Or.inl (h ▸ List.mem_cons_self _ _)
      · rcases ih h with h2 | h2
        · exact Or.inl (List.mem_cons_of_mem _ h2)
        · exact Or.inr h2

theorem self_mem_insertA {β : Type} (m : List (String × β)) (k : String) (v : β) :
    (k, v) ∈ insertA m k v := by
  induction m with
  | nil => simp [insertA]
  | cons a m ih =>
    by_cases hk : a.1 = k <;> simp [insertA, hk, ih]

theorem mem_insertA_of_ne {β : Type} {m : List (String × β)} {e : String × β}
    (h : e ∈ m) (k : String) (v : β) (hne : e.1 ≠ k) : e ∈ insertA m k v := by
  induction m with
  | nil => cases h
  | cons a m ih =>
    by_cases hk : a.1 = k
    · simp only [insertA, if_pos hk]
      rcases List.mem_cons.mp h with h2 | h2
      · exact absurd (h2 ▸ hk) hne
      · exact List.mem_cons_of_mem _ h2
    · simp only [insertA, if_neg hk]
      rcases List.mem_cons.mp h with h2 | h2
      · exact h2 ▸ List.mem_cons_self _ _
      · exact List.mem_cons_of_mem _ (ih h2)

theorem insertA_eq_append {β : Type} {m : List (String × β)} {k : String}
    (h : k ∉ m.map Prod.fst) (v : β) : insertA m k v = m ++ [(k, v)] := by
  induction m with
  | nil => rfl
  | cons a m ih =>
    simp only [List.map_cons, List.mem_cons, not_or] at h
    have hne : ¬ a.1 = k := fun hh => h.1 hh.symm
    simp [insertA, hne, ih h.2]

theorem keys_insertA_of_mem {β : Type} {m : List (String × β)} {k : String}
    (h : k ∈ m.map Prod.fst) (v : β) :
    (insertA m k v).map Prod.fst = m.map Prod.fst := by
  induction m with
  | nil => cases h
  | cons a m ih =>
    by_cases hk : a.1 = k
    · simp [insertA, hk]
    · have h2 : k ∈ m.map Prod.fst := by
        rcases List.mem_cons.mp h with h2 | h2
        · exact absurd h2.symm hk
        · exact h2
      simp [insertA, hk, ih h2]

theorem keys_insertA_nodup {β : Type} {m : List (String × β)} {k : String} {v : β}
    (h : (m.map Prod.fst).Nodup) : ((insertA m k v).map Prod.fst).Nodup := by
  by_cases hk : k ∈ m.map Prod.fst
  · rw [keys_insertA_of_mem hk]
    exact h
  · rw [insertA_eq_append hk, List.map_append]
    refine List.Nodup.append h (by simp) ?_
    intro a ha hb
    simp only [List.map_cons, List.map_nil, List.mem_singleton] at hb
    exact hk (hb ▸ ha)

theorem mem_eraseA {β : Type} {m : List (String × β)} {k : String} {e : String × β} :
    e ∈ eraseA m k ↔ e ∈ m ∧ e.1 ≠ k := by
  induction m with
  | nil => simp [eraseA]
  | cons a m ih =>
    by_cases hk : a.1 = k
    · rw [eraseA, if_pos hk, ih]
      constructor
      · exact fun hx => ⟨List.mem_cons_of_mem _ hx.1, hx.2⟩
      · rintro ⟨h1, h2⟩
        rcases List.mem_cons.mp h1 with h3 | h3
        · exact absurd (h3 ▸ hk) h2
        · exact ⟨h3, h2⟩
    · rw [eraseA, if_neg hk]
      constructor
      · intro hx
        rcases List.mem_cons.mp hx with h3 | h3
        · exact ⟨h3 ▸ List.mem_cons_self _ _, h3 ▸ hk⟩
        · exact ⟨List.mem_cons_of_mem _ (ih.mp h3).1, (ih.mp h3).2⟩
      · rintro ⟨h1, h2⟩
        rcases List.mem_cons.mp h1 with h3 | h3
        · exact h3 ▸ List.mem_cons_self _ _
        · exact List.mem_cons_of_mem _ (ih.mpr ⟨h3, h2⟩)

theorem eraseA_eq_self {β : Type} {m : List (String × β)} {k : String}
    (h : k ∉ m.map Prod.fst) : eraseA m k = m := by
  induction m with
  | nil => rfl
  | cons a m ih =>
    simp only [List.map_cons, List.mem_cons, not_or] at h
    have hne : ¬ a.1 = k := fun hh => h.1 hh.symm
    simp [eraseA, hne, ih h.2]

theorem eraseA_eq_filter {β : Type} (m : List (String × β)) (k : String) :
    eraseA m k = m.filter (fun e => ! decide (e.1 = k)) := by
  induction m with
  | nil => rfl
  | cons a m ih =>
    by_cases hk : a.1 = k <;> simp [eraseA, hk, ih, List.filter_cons]

theorem keys_eraseA_nodup {β : Type} {m : List (String × β)} {k : String}
    (h : (m.map Prod.fst).Nodup) : ((eraseA m k).map Prod.fst).Nodup := by
  rw [eraseA_eq_filter]
  exact ((List.filter_sublist m).map Prod.fst).nodup h

theorem toMapA_aux_eq {β : Type} :
    ∀ (l acc : List (String × β)), ((acc ++ l).map Prod.fst).Nodup →
      l.foldl (fun m e => insertA m e.1 e.2) acc = acc ++ l
  | [], acc, _ => by simp
  | e :: l, acc, h => by
    have hkey : e.1 ∉ acc.map Prod.fst := by
      simp only [List.map_append, List.nodup_append] at h
      intro hc
      exact h.2.2 hc (by simp)
    have hins : insertA acc e.1 e.2 = acc ++ [e] := by
      rw [insertA_eq_append hkey]
    have h2 : (((acc ++ [e]) ++ l).map Prod.fst).Nodup := by
      simpa [List.append_assoc] using h
    rw [List.foldl_cons, hins, toMapA_aux_eq l (acc ++ [e]) h2, List.append_assoc]
    rfl

theorem toMapA_eq_self {β : Type} {l : List (String × β)} (h : (l.map Prod.fst).Nodup) :
    toMapA l = l := by
  have := toMapA_aux_eq l [] (by simpa using h)
  simpa [toMapA] using this

theorem mem_foldl_eraseA {β : Type} :
    ∀ (l : List String) (m : List (String × β)) (e : String × β),
      (e ∈ l.foldl (fun mm d => eraseA mm d) m) ↔ (e ∈ m ∧ e.1 ∉ l)
  | [], m, e => by simp
  | d :: l, m, e => by
    rw [List.foldl_cons, mem_foldl_eraseA l (eraseA m d) e, mem_eraseA]
    simp only [List.mem_cons, not_or]
    tauto

theorem keys_foldl_eraseA_nodup {β : Type} {l : List String} {m : List (String × β)}
    (h : (m.map Prod.fst).Nodup) :
    (((l.foldl (fun mm d => eraseA mm d) m)).map Prod.fst).Nodup :=
  @foldl_preserve _ _ (fun mm => ((mm.map Prod.fst).Nodup)) _ l
    (fun _ _ _ hb => keys_eraseA_nodup hb) m h

theorem mem_foldl_insertA_of_not_key {β : Type} {l : List (String × β)}
    {m : List (String × β)} {e : String × β}
    (he : e ∈ m) (hk : ∀ fh ∈ l, fh.1 ≠ e.1) :
    e ∈ l.foldl (fun mm fh => insertA mm fh.1 fh.2) m := by
  refine @foldl_preserve _ _ (fun mm => e ∈ mm) _ l ?_ m he
  intro a b hb ha
  exact mem_insertA_of_ne ha _ _ (fun hh => hk b hb hh.symm)

theorem keys_foldl_insertA_nodup {β : Type} {l : List (String × β)}
    {m : List (String × β)} (h : (m.map Prod.fst).Nodup) :
    ((l.foldl (fun mm fh => insertA mm fh.1 fh.2) m).map Prod.fst).Nodup :=
  @foldl_preserve _ _ (fun mm => ((mm.map Prod.fst).Nodup)) _ l
    (fun _ _ _ hb => keys_insertA_nodup hb) m h

theorem toMapA_keys_nodup {β : Type} (l : List (String × β)) :
    ((toMapA l).map Prod.fst).Nodup :=
  keys_foldl_insertA_nodup (by simp)

theorem fileLE_imp_path_le {a b : String × String} (h : fileLE a b) :
    a.1.data ≤ b.1.data := by
  rcases h with h | ⟨h, _⟩
  · exact le_of_lt h
  · exact le_of_eq h

theorem containsA_iff_mem_keys {β : Type} {m : List (String × β)} {k : String} :
    containsA m k = true ↔ k ∈ m.map Prod.fst := by
  simp only [containsA, List.any_eq_true, decide_eq_true_eq, List.mem_map]

theorem exists_of_mem_keys {β : Type} {m : List (String × β)} {k : String}
    (h : k ∈ m.map Prod.fst) : ∃ b, (k, b) ∈ m := by
  rcases List.mem_map.mp h with ⟨e, he, hek⟩
  exact ⟨e.2, by rw [← hek]; exact he⟩

theorem keys_modifyA {β : Type} (m : List (String × β)) (k : String) (f : β → β) :
    (modifyA m k f).map Prod.fst = m.map Prod.fst := by
  induction m with
  | nil => rfl
  | cons a m ih => by_cases hk : a.1 = k <;> simp [modifyA, hk, ih]

theorem mem_modifyA {β : Type} {m : List (String × β)} {k : String} {f : β → β}
    {e : String × β} (h : e ∈ modifyA m k f) :
    e ∈ m ∨ ∃ b, (k, b) ∈ m ∧ e = (k, f b) := by
  induction m with
  | nil => exact absurd h (by simp [modifyA])
  | cons a m ih =>
    by_cases hk : a.1 = k
    · rw [modifyA, if_pos hk] at h
      rcases List.mem_cons.mp h with h2 | h2
      · right
        refine ⟨a.2, ?_, by rw [h2, hk]⟩
        rw [← hk]
        exact List.mem_cons_self _ _
      · rcases ih h2 with h3 | ⟨b, hb, he⟩
        · exact Or.inl (List.mem_cons_of_mem _ h3)
        · exact Or.inr ⟨b, List.mem_cons_of_mem _ hb, he⟩
    · rw [modifyA, if_neg hk] at h
      rcases List.mem_cons.mp h with h2 | h2
      · exact Or.inl (h2 ▸ List.mem_cons_self _ _)
      · rcases ih h2 with h3 | ⟨b, hb, he⟩
        · exact Or.inl (List.mem_cons_of_mem _ h3)
        · exact Or.inr ⟨b, List.mem_cons_of_mem _ hb, he⟩

theorem mem_modifyA_self {β : Type} {m : List (String × β)} {k : String} {b : β}
    (h : (k, b) ∈ m) (f : β → β) : (k, f b) ∈ modifyA m k f := by
  induction m with
  | nil => cases h
  | cons a m ih =>
    by_cases hk : a.1 = k
    · rw [modifyA, if_pos hk]
      rcases List.mem_cons.mp h with h2 | h2
      · have ha1 : a.1 = k := hk
        have ha2 : a.2 = b := by rw [← h2]
        rw [ha1, ha2]
        exact List.mem_cons_self _ _
      · exact List.mem_cons_of_mem _ (ih h2)
    · rw [modifyA, if_neg hk]
      rcases List.mem_cons.mp h with h2 | h2
      · exact absurd (by rw [← h2]) hk
      · exact List.mem_cons_of_mem _ (ih h2)

theorem mem_modifyA_of_ne {β : Type} {m : List (String × β)} {k : String} {f : β → β}
    {e : String × β} (h : e ∈ m) (hne : e.1 ≠ k) : e ∈ modifyA m k f := by
  induction m with
  | nil => cases h
  | cons a m ih =>
    by_cases hk : a.1 = k
    · rw [modifyA, if_pos hk]
      rcases List.mem_cons.mp h with h2 | h2
      · exact absurd (h2 ▸ hk) hne
      · exact List.mem_cons_of_mem _ (ih h2)
    · rw [modifyA, if_neg hk]
      rcases List.mem_cons.mp h with h2 | h2
      · exact h2 ▸ List.mem_cons_self _ _
      · exact List.mem_cons_of_mem _ (ih h2)

theorem updateRecord_self_mem (fl : List FileData) (file hsh : String) :
    (file, hsh) ∈ updateRecord fl file hsh := by
  induction fl with
  | nil => simp [updateRecord]
  | cons f fs ih => by_cases hk : f.1 = file <;> simp [updateRecord, hk, ih]

theorem mem_updateRecord_of_ne {fl : List FileData} {e : FileData} (h : e ∈ fl)
    {file : String} (hsh : String) (hne : e.1 ≠ file) : e ∈ updateRecord fl file hsh := by
  induction fl with
  | nil => cases h
  | cons f fs ih =>
    by_cases hk : f.1 = file
    · rw [updateRecord, if_pos hk]
      rcases List.mem_cons.mp h with h2 | h2
      · exact absurd (h2 ▸ hk) hne
      · exact List.mem_cons_of_mem _ h2
    · rw [updateRecord, if_neg hk]
      rcases List.mem_cons.mp h with h2 | h2
      · exact h2 ▸ List.mem_cons_self _ _
      · exact List.mem_cons_of_mem _ (ih h2)

theorem mem_updateRecord {fl : List FileData} {file hsh : String} {e : FileData}
    (h : e ∈ updateRecord fl file hsh) : e ∈ fl ∨ e = (file, hsh) := by
  induction fl with
  | nil =>
    simp only [updateRecord, List.mem_singleton] at h
    exact Or.inr h
  | cons f fs ih =>
    by_cases hk : f.1 = file
    · rw [updateRecord, if_pos hk] at h
      rcases List.mem_cons.mp h with h2 | h2
      · exact Or.inr h2
      · exact Or.inl (List.mem_cons_of_mem _ h2)
    · rw [updateRecord, if_neg hk] at h
      rcases List.mem_cons.mp h with h2 | h2
      · exact Or.inl (h2 ▸ List.mem_cons_self _ _)
      · rcases ih h2 with h3 | h3
        · exact Or.inl (List.mem_cons_of_mem _ h3)
        · exact Or.inr h3

theorem keys_nodup_updateRecord {fl : List FileData} (hnd : (fl.map Prod.fst).Nodup)
    (file hsh : String) : ((updateRecord fl file hsh).map Prod.fst).Nodup := by
  induction fl with
  | nil => simp [updateRecord]
  | cons f fs ih =>
    rw [List.map_cons, List.nodup_cons] at hnd
    by_cases hk : f.1 = file
    · rw [updateRecord, if_pos hk, List.map_cons, List.nodup_cons]
      exact ⟨hk ▸ hnd.1, hnd.2⟩
    · rw [updateRecord, if_neg hk, List.map_cons, List.nodup_cons]
      refine ⟨?_, ih hnd.2⟩
      intro hc
      rcases List.mem_map.mp hc with ⟨e, he, hek⟩
      rcases mem_updateRecord he with h2 | h2
      · exact hnd.1 (hek ▸ List.mem_map_of_mem Prod.fst h2)
      · exact hk (by rw [← hek, h2])

theorem removeRecord_sublist (fl : List FileData) (d : String) :
    (removeRecord fl d).Sublist fl := by
  induction fl with
  | nil => simp [removeRecord]
  | cons f fs ih =>
    by_cases hk : f.1 = d
    · rw [removeRecord, if_pos hk]
      exact List.sublist_cons_of_sublist _ (List.Sublist.refl _)
    · rw [removeRecord, if_neg hk]
      exact List.Sublist.cons₂ _ ih

theorem mem_removeRecord_of_ne {fl : List FileData} {e : FileData} (h : e ∈ fl)
    {d : String} (hne : e.1 ≠ d) : e ∈ removeRecord fl d := by
  induction fl with
  | nil => cases h
  | cons f fs ih =>
    by_cases hk : f.1 = d
    · rw [removeRecord, if_pos hk]
      rcases List.mem_cons.mp h with h2 | h2
      · exact absurd (h2 ▸ hk) hne
      · exact h2
    · rw [removeRecord, if_neg hk]
      rcases List.mem_cons.mp h with h2 | h2
      · exact h2 ▸ List.mem_cons_self _ _
      · exact List.mem_cons_of_mem _ (ih h2)

theorem not_mem_removeRecord {fl : List FileData} (hnd : (fl.map Prod.fst).Nodup)
    {d hh : String} : (d, hh) ∉ removeRecord fl d := by
  induction fl with
  | nil => simp [removeRecord]
  | cons f fs ih =>
    rw [List.map_cons, List.nodup_cons] at hnd
    by_cases hk : f.1 = d
    · rw [removeRecord, if_pos hk]
      intro hc
      exact hnd.1 (hk ▸ List.mem_map_of_mem Prod.fst hc)
    · rw [removeRecord, if_neg hk]
      intro hc
      rcases List.mem_cons.mp hc with h2 | h2
      · exact hk (by rw [← h2])
      · exact ih hnd.2 h2

theorem keys_applyUpdatedFile (m : List (String × String)) (st : ProjectFiles × Files)
    (u : String × String) : (applyUpdatedFile m st u).1.map Prod.fst = st.1.map Prod.fst := by
  unfold applyUpdatedFile
  cases find_project_for_path u.1 m with
  | none => rfl
  | some p =>
    by_cases hc : containsA st.1 p
    · simp [hc, keys_modifyA]
    · simp [hc]

theorem keys_applyDeletedFile (m : List (String × String)) (st : ProjectFiles × Files)
    (d : String) : (applyDeletedFile m st d).1.map Prod.fst = st.1.map Prod.fst := by
  unfold applyDeletedFile
  cases find_project_for_path d m with
  | none => rfl
  | some p =>
    by_cases hc : containsA st.1 p
    · simp [hc, keys_modifyA]
    · simp [hc]

theorem projEntry_establish {m : List (String × String)} {st : ProjectFiles × Files}
    {f hh p : String} (hfp : find_project_for_path f m = some p)
    (hc : containsA st.1 p = true) :
    ∃ fl, (p, fl) ∈ (applyUpdatedFile m st (f, hh)).1 ∧ (f, hh) ∈ fl := by
  rcases exists_of_mem_keys (containsA_iff_mem_keys.mp hc) with ⟨b, hb⟩
  refine ⟨updateRecord b f hh, ?_, updateRecord_self_mem b f hh⟩
  unfold applyUpdatedFile
  simp only [hfp, hc, if_true]
  exact mem_modifyA_self hb _

theorem projEntry_preserve_update {m : List (String × String)} {st : ProjectFiles × Files}
    {f hh p : String} (hex : ∃ fl, (p, fl) ∈ st.1 ∧ (f, hh) ∈ fl)
    {u : String × String} (hne : u.1 ≠ f) :
    ∃ fl, (p, fl) ∈ (applyUpdatedFile m st u).1 ∧ (f, hh) ∈ fl := by
  rcases hex with ⟨fl, hfl, hmem⟩
  unfold applyUpdatedFile
  cases find_project_for_path u.1 m with
  | none => exact ⟨fl, hfl, hmem⟩
  | some q =>
    by_cases hc : containsA st.1 q
    · simp only [hc, if_true]
      by_cases hpq : p = q
      · subst hpq
        exact ⟨updateRecord fl u.1 u.2, mem_modifyA_self hfl _,
          mem_updateRecord_of_ne hmem _ (fun hcf => hne hcf.symm)⟩
      · exact ⟨fl, mem_modifyA_of_ne hfl hpq, hmem⟩
    · simp only [hc, if_false]
      exact ⟨fl, hfl, hmem⟩

theorem projEntry_preserve_delete {m : List (String × String)} {st : ProjectFiles × Files}
    {f hh p : String} (hex : ∃ fl, (p, fl) ∈ st.1 ∧ (f, hh) ∈ fl)
    {d : String} (hne : d ≠ f) :
    ∃ fl, (p, fl) ∈ (applyDeletedFile m st d).1 ∧ (f, hh) ∈ fl := by
  rcases hex with ⟨fl, hfl, hmem⟩
  unfold applyDeletedFile
  cases find_project_for_path d m with
  | none => exact ⟨fl, hfl, hmem⟩
  | some q =>
    by_cases hc : containsA st.1 q
    · simp only [hc, if_true]
      by_cases hpq : p = q
      · subst hpq
        exact ⟨removeRecord fl d, mem_modifyA_self hfl _,
          mem_removeRecord_of_ne hmem (fun hcf => hne hcf.symm)⟩
      · exact ⟨fl, mem_modifyA_of_ne hfl hpq, hmem⟩
    · simp only [hc, if_false]
      exact ⟨fl, hfl, hmem⟩

theorem mem_modifyA_key {β : Type} {m : List (String × β)} {k : String} {f : β → β}
    {e : String × β} (h : e ∈ modifyA m k f) (hek : e.1 = k) :
    ∃ b, (k, b) ∈ m ∧ e = (k, f b) := by
  induction m with
  | nil => exact absurd h (by simp [modifyA])
  | cons a m ih =>
    by_cases hk : a.1 = k
    · rw [modifyA, if_pos hk] at h
      rcases List.mem_cons.mp h with h2 | h2
      · refine ⟨a.2, ?_, by rw [h2, hk]⟩
        rw [← hk]
        exact List.mem_cons_self _ _
      · rcases ih h2 with ⟨b, hb, he⟩
        exact ⟨b, List.mem_cons_of_mem _ hb, he⟩
    · rw [modifyA, if_neg hk] at h
      rcases List.mem_cons.mp h with h2 | h2
      · exact absurd (by rw [← h2]; exact hek) hk
      · rcases ih h2 with ⟨b, hb, he⟩
        exact ⟨b, List.mem_cons_of_mem _ hb, he⟩

theorem WF_applyUpdatedFile {m : List (String × String)} {ks : List String}
    {st : ProjectFiles × Files} (hwf : WFState m ks st) (u : String × String) :
    WFState m ks (applyUpdatedFile m st u) := by
  obtain ⟨hkeys, hproj, hgnd, hgroute⟩ := hwf
  unfold applyUpdatedFile
  cases hfp : find_project_for_path u.1 m with
  | none =>
    refine ⟨hkeys, hproj, keys_insertA_nodup hgnd, ?_⟩
    intro fd hfd
    rcases mem_insertA hfd with h2 | h2
    · exact hgroute fd h2
    · rw [h2]
      show routeOf m ks u.1 = none
      unfold routeOf
      rw [hfp]
  | some p =>
    by_cases hc : containsA st.1 p
    · simp only [hc, if_true]
      have hpks : p ∈ ks := hkeys ▸ containsA_iff_mem_keys.mp hc
      refine ⟨by rw [keys_modifyA]; exact hkeys, ?_, hgnd, hgroute⟩
      intro e he
      rcases mem_modifyA he with h2 | ⟨b, hb, he2⟩
      · exact hproj e h2
      · obtain ⟨hbnd, hbroute⟩ := hproj (p, b) hb
        rw [he2]
        refine ⟨keys_nodup_updateRecord hbnd u.1 u.2, ?_⟩
        intro fd hfd
        rcases mem_updateRecord hfd with h3 | h3
        · exact hbroute fd h3
        · rw [h3]
          show routeOf m ks u.1 = some p
          unfold routeOf
          rw [hfp]
          simp [hpks]
    · simp only [hc, if_false]
      have hpks : p ∉ ks := fun hin => hc (containsA_iff_mem_keys.mpr (hkeys ▸ hin))
      refine ⟨hkeys, hproj, keys_insertA_nodup hgnd, ?_⟩
      intro fd hfd
      rcases mem_insertA hfd with h2 | h2
      · exact hgroute fd h2
      · rw [h2]
        show routeOf m ks u.1 = none
        unfold routeOf
        rw [hfp]
        simp [hpks]

theorem WF_applyDeletedFile {m : List (String × String)} {ks : List String}
    {st : ProjectFiles × Files} (hwf : WFState m ks st) (d : String) :
    WFState m ks (applyDeletedFile m st d) := by
  obtain ⟨hkeys, hproj, hgnd, hgroute⟩ := hwf
  unfold applyDeletedFile
  have hglobNd : ((if containsA st.2 d then eraseA st.2 d else st.2).map Prod.fst).Nodup := by
    by_cases hcg : containsA st.2 d <;> simp [hcg, keys_eraseA_nodup, hgnd]
  have hglobRoute : ∀ fd ∈ (if containsA st.2 d then eraseA st.2 d else st.2),
      routeOf m ks fd.1 = none := by
    by_cases hcg : containsA st.2 d
    · simp only [hcg, if_true]
      intro fd hfd
      exact hgroute fd (mem_eraseA.mp hfd).1
    · simp only [hcg, if_false]
      exact hgroute
  cases hfp : find_project_for_path d m with
  | none => exact ⟨hkeys, hproj, hglobNd, hglobRoute⟩
  | some p =>
    by_cases hc : containsA st.1 p
    · simp only [hc, if_true]
      refine ⟨by rw [keys_modifyA]; exact hkeys, ?_, hglobNd, hglobRoute⟩
      intro e he
      rcases mem_modifyA he with h2 | ⟨b, hb, he2⟩
      · exact hproj e h2
      · obtain ⟨hbnd, hbroute⟩ := hproj (p, b) hb
        rw [he2]
        exact ⟨((removeRecord_sublist b d).map Prod.fst).nodup hbnd,
          fun fd hfd => hbroute fd ((removeRecord_sublist b d).subset hfd)⟩
    · simp only [hc, if_false]
      exact ⟨hkeys, hproj, hglobNd, hglobRoute⟩

theorem applyUpdatedFile_eq_none {m : List (String × String)} {st : ProjectFiles × Files}
    {u : String × String} (hfp : find_project_for_path u.1 m = none) :
    applyUpdatedFile m st u = (st.1, insertA st.2 u.1 u.2) := by
  unfold applyUpdatedFile
  rw [hfp]

theorem applyUpdatedFile_eq_proj {m : List (String × String)} {st : ProjectFiles × Files}
    {u : String × String} {p : String} (hfp : find_project_for_path u.1 m = some p)
    (hc : containsA st.1 p = true) :
    applyUpdatedFile m st u
      = (modifyA st.1 p (fun fl => updateRecord fl u.1 u.2), st.2) := by
  unfold applyUpdatedFile
  rw [hfp]
  exact if_pos hc

theorem applyUpdatedFile_eq_glob {m : List (String × String)} {st : ProjectFiles × Files}
    {u : String × String} {p : String} (hfp : find_project_for_path u.1 m = some p)
    (hc : ¬ containsA st.1 p = true) :
    applyUpdatedFile m st u = (st.1, insertA st.2 u.1 u.2) := by
  unfold applyUpdatedFile
  rw [hfp]
  exact if_neg hc

theorem applyDeletedFile_eq_none {m : List (String × String)} {st : ProjectFiles × Files}
    {d : String} (hfp : find_project_for_path d m = none) :
    applyDeletedFile m st d
      = (st.1, if containsA st.2 d then eraseA st.2 d else st.2) := by
  unfold applyDeletedFile
  rw [hfp]

theorem applyDeletedFile_eq_proj {m : List (String × String)} {st : ProjectFiles × Files}
    {d : String} {p : String} (hfp : find_project_for_path d m = some p)
    (hc : containsA st.1 p = true) :
    applyDeletedFile m st d
      = (modifyA st.1 p (fun fl => removeRecord fl d),
         if containsA st.2 d then eraseA st.2 d else st.2) := by
  unfold applyDeletedFile
  rw [hfp]
  show (if containsA st.1 p = true then modifyA st.1 p (fun fl => removeRecord fl d) else st.1,
    if containsA st.2 d = true then eraseA st.2 d else st.2) = _
  rw [if_pos hc]

theorem applyDeletedFile_eq_glob {m : List (String × String)} {st : ProjectFiles × Files}
    {d : String} {p : String} (hfp : find_project_for_path d m = some p)
    (hc : ¬ containsA st.1 p = true) :
    applyDeletedFile m st d
      = (st.1, if containsA st.2 d then eraseA st.2 d else st.2) := by
  unfold applyDeletedFile
  rw [hfp]
  show (if containsA st.1 p = true then modifyA st.1 p (fun fl => removeRecord fl d) else st.1,
    if containsA st.2 d = true then eraseA st.2 d else st.2) = _
  rw [if_neg hc]

theorem InPart_applyUpdatedFile {m : List (String × String)} {st : ProjectFiles × Files}
    {u : String × String} {x : String} :
    InPart (applyUpdatedFile m st u) x ↔ (InPart st x ∨ x = u.1) := by
  cases hfp : find_project_for_path u.1 m with
  | none =>
    rw [applyUpdatedFile_eq_none hfp]
    constructor
    · intro hin
      rcases hin with ⟨e, he, hh, hmem⟩ | ⟨hh, hmem⟩
      · exact Or.inl (Or.inl ⟨e, he, hh, hmem⟩)
      · rcases mem_insertA hmem with h2 | h2
        · exact Or.inl (Or.inr ⟨hh, h2⟩)
        · simp only [Prod.mk.injEq] at h2
          exact Or.inr h2.1
    · intro hor
      by_cases hxu : x = u.1
      · refine Or.inr ⟨u.2, ?_⟩
        rw [hxu]
        exact self_mem_insertA st.2 u.1 u.2
      · rcases hor with hin | hin
        · rcases hin with ⟨e, he, hh, hmem⟩ | ⟨hh, hmem⟩
          · exact Or.inl ⟨e, he, hh, hmem⟩
          · exact Or.inr ⟨hh, mem_insertA_of_ne hmem _ _ hxu⟩
        · exact absurd hin hxu
  | some p =>
    by_cases hc : containsA st.1 p
    · rw [applyUpdatedFile_eq_proj hfp hc]
      constructor
      · intro hin
        rcases hin with ⟨e, he, hh, hmem⟩ | ⟨hh, hmem⟩
        · rcases mem_modifyA he with h2 | ⟨b, hb, he2⟩
          · exact Or.inl (Or.inl ⟨e, h2, hh, hmem⟩)
          · rw [he2] at hmem
            rcases mem_updateRecord hmem with h3 | h3
            · exact Or.inl (Or.inl ⟨(p, b), hb, hh, h3⟩)
            · simp only [Prod.mk.injEq] at h3
              exact Or.inr h3.1
        · exact Or.inl (Or.inr ⟨hh, hmem⟩)
      · intro hor
        by_cases hxu : x = u.1
        · rcases exists_of_mem_keys (containsA_iff_mem_keys.mp hc) with ⟨b, hb⟩
          refine Or.inl ⟨(p, updateRecord b u.1 u.2), mem_modifyA_self hb _, u.2, ?_⟩
          rw [hxu]
          exact updateRecord_self_mem b u.1 u.2
        · rcases hor with hin | hin
          · rcases hin with ⟨e, he, hh, hmem⟩ | ⟨hh, hmem⟩
            · by_cases hep : e.1 = p
              · have hb : (p, e.2) ∈ st.1 := by
                  rw [← hep]
                  exact he
                exact Or.inl ⟨(p, updateRecord e.2 u.1 u.2), mem_modifyA_self hb _, hh,
                  mem_updateRecord_of_ne hmem _ hxu⟩
              · exact Or.inl ⟨e, mem_modifyA_of_ne he hep, hh, hmem⟩
            · exact Or.inr ⟨hh, hmem⟩
          · exact absurd hin hxu
    · rw [applyUpdatedFile_eq_glob hfp hc]
      constructor
      · intro hin
        rcases hin with ⟨e, he, hh, hmem⟩ | ⟨hh, hmem⟩
        · exact Or.inl (Or.inl ⟨e, he, hh, hmem⟩)
        · rcases mem_insertA hmem with h2 | h2
          · exact Or.inl (Or.inr ⟨hh, h2⟩)
          · simp only [Prod.mk.injEq] at h2
            exact Or.inr h2.1
      · intro hor
        by_cases hxu : x = u.1
        · refine Or.inr ⟨u.2, ?_⟩
          rw [hxu]
          exact self_mem_insertA st.2 u.1 u.2
        · rcases hor with hin | hin
          · rcases hin with ⟨e, he, hh, hmem⟩ | ⟨hh, hmem⟩
            · exact Or.inl ⟨e, he, hh, hmem⟩
            · exact Or.inr ⟨hh, mem_insertA_of_ne hmem _ _ hxu⟩
          · exact absurd hin hxu

theorem InPart_applyDeletedFile {m : List (String × String)} {ks : List String}
    {st : ProjectFiles × Files} {d x : String} (hwf : WFState m ks st) :
    InPart (applyDeletedFile m st d) x ↔ (InPart st x ∧ x ≠ d) := by
  obtain ⟨hkeys, hproj, hgnd, hgroute⟩ := hwf
  have hglob : ∀ hh : String,
      ((x, hh) ∈ (if containsA st.2 d then eraseA st.2 d else st.2)) ↔
        ((x, hh) ∈ st.2 ∧ x ≠ d) := by
    intro hh
    by_cases hcg : containsA st.2 d
    · rw [if_pos hcg]
      exact mem_eraseA
    · rw [if_neg hcg]
      constructor
      · intro hmem
        refine ⟨hmem, ?_⟩
        intro hxd
        exact hcg (containsA_iff_mem_keys.mpr
          (hxd ▸ List.mem_map_of_mem Prod.fst hmem))
      · exact fun hx => hx.1
  cases hfp : find_project_for_path d m with
  | none =>
    rw [applyDeletedFile_eq_none hfp]
    constructor
    · intro hin
      rcases hin with ⟨e, he, hh, hmem⟩ | ⟨hh, hmem⟩
      · refine ⟨Or.inl ⟨e, he, hh, hmem⟩, ?_⟩
        intro hxd
        have h3 := (hproj e he).2 (x, hh) hmem
        unfold routeOf at h3
        rw [hxd, hfp] at h3
        exact Option.noConfusion h3
      · have h2 := (hglob hh).mp hmem
        exact ⟨Or.inr ⟨hh, h2.1⟩, h2.2⟩
    · rintro ⟨hin, hxd⟩
      rcases hin with ⟨e, he, hh, hmem⟩ | ⟨hh, hmem⟩
      · exact Or.inl ⟨e, he, hh, hmem⟩
      · exact Or.inr ⟨hh, (hglob hh).mpr ⟨hmem, hxd⟩⟩
  | some p =>
    by_cases hc : containsA st.1 p
    · rw [applyDeletedFile_eq_proj hfp hc]
      have hpks : p ∈ ks := hkeys ▸ containsA_iff_mem_keys.mp hc
      constructor
      · intro hin
        rcases hin with ⟨e, he, hh, hmem⟩ | ⟨hh, hmem⟩
        · by_cases hep : e.1 = p
          · rcases mem_modifyA_key he hep with ⟨b, hb, he2⟩
            have hbprop := hproj (p, b) hb
            rw [he2] at hmem
            refine ⟨Or.inl ⟨(p, b), hb, hh, (removeRecord_sublist b d).subset hmem⟩, ?_⟩
            intro hxd
            rw [hxd] at hmem
            exact not_mem_removeRecord hbprop.1 hmem
          · have he3 : e ∈ st.1 := by
              rcases mem_modifyA he with h2 | ⟨b, _, he2⟩
              · exact h2
              · exact absurd (by rw [he2]) hep
            refine ⟨Or.inl ⟨e, he3, hh, hmem⟩, ?_⟩
            intro hxd
            have h3 := (hproj e he3).2 (x, hh) hmem
            unfold routeOf at h3
            simp only [hxd, hfp] at h3
            rw [if_pos hpks] at h3
            exact hep (Option.some.inj h3).symm
        · have h2 := (hglob hh).mp hmem
          exact ⟨Or.inr ⟨hh, h2.1⟩, h2.2⟩
      · rintro ⟨hin, hxd⟩
        rcases hin with ⟨e, he, hh, hmem⟩ | ⟨hh, hmem⟩
        · by_cases hep : e.1 = p
          · have hb : (p, e.2) ∈ st.1 := by
              rw [← hep]
              exact he
            exact Or.inl ⟨(p, removeRecord e.2 d), mem_modifyA_self hb _, hh,
              mem_removeRecord_of_ne hmem hxd⟩
          · exact Or.inl ⟨e, mem_modifyA_of_ne he hep, hh, hmem⟩
        · exact Or.inr ⟨hh, (hglob hh).mpr ⟨hmem, hxd⟩⟩
    · rw [applyDeletedFile_eq_glob hfp hc]
      have hpks : p ∉ ks := fun hin2 => hc (containsA_iff_mem_keys.mpr (hkeys ▸ hin2))
      constructor
      · intro hin
        rcases hin with ⟨e, he, hh, hmem⟩ | ⟨hh, hmem⟩
        · refine ⟨Or.inl ⟨e, he, hh, hmem⟩, ?_⟩
          intro hxd
          have h3 := (hproj e he).2 (x, hh) hmem
          unfold routeOf at h3
          simp only [hxd, hfp] at h3
          rw [if_neg hpks] at h3
          exact Option.noConfusion h3
        · have h2 := (hglob hh).mp hmem
          exact ⟨Or.inr ⟨hh, h2.1⟩, h2.2⟩
      · rintro ⟨hin, hxd⟩
        rcases hin with ⟨e, he, hh, hmem⟩ | ⟨hh, hmem⟩
        · exact Or.inl ⟨e, he, hh, hmem⟩
        · exact Or.inr ⟨hh, (hglob hh).mpr ⟨hmem, hxd⟩⟩

theorem InPart_foldl_update {m : List (String × String)} :
    ∀ (upd : List (String × String)) (st : ProjectFiles × Files) (x : String),
      InPart (upd.foldl (applyUpdatedFile m) st) x ↔ (InPart st x ∨ x ∈ upd.map Prod.fst)
  | [], st, x => by simp
  | u :: upd, st, x => by
    rw [List.foldl_cons, InPart_foldl_update upd (applyUpdatedFile m st u) x,
      InPart_applyUpdatedFile]
    simp only [List.map_cons, List.mem_cons]
    tauto

theorem WF_foldl_update {m : List (String × String)} {ks : List String}
    (upd : List (String × String)) {st : ProjectFiles × Files}
    (hwf : WFState m ks st) : WFState m ks (upd.foldl (applyUpdatedFile m) st) :=
  @foldl_preserve (ProjectFiles × Files) (String × String) (WFState m ks)
    (applyUpdatedFile m) upd (fun _ b _ hb => WF_applyUpdatedFile hb b) st hwf

theorem WF_foldl_delete {m : List (String × String)} {ks : List String}
    (del : List String) {st : ProjectFiles × Files}
    (hwf : WFState m ks st) : WFState m ks (del.foldl (applyDeletedFile m) st) :=
  @foldl_preserve (ProjectFiles × Files) String (WFState m ks)
    (applyDeletedFile m) del (fun _ b _ hb => WF_applyDeletedFile hb b) st hwf

theorem InPart_foldl_delete {m : List (String × String)} {ks : List String} :
    ∀ (del : List String) (st : ProjectFiles × Files) (x : String), WFState m ks st →
      (InPart (del.foldl (applyDeletedFile m) st) x ↔ (InPart st x ∧ x ∉ del))
  | [], st, x, _ => by simp
  | d :: del, st, x, hwf => by
    rw [List.foldl_cons,
      InPart_foldl_delete del (applyDeletedFile m st d) x (WF_applyDeletedFile hwf d),
      InPart_applyDeletedFile hwf]
    simp only [List.mem_cons, not_or]
    tauto

theorem WF_disjoint {m : List (String × String)} {ks : List String}
    {st : ProjectFiles × Files} (hwf : WFState m ks st) :
    (∀ x e, e ∈ st.1 → (∃ hh, (x, hh) ∈ e.2) → ∀ hh2, (x, hh2) ∉ st.2)
    ∧ (∀ x e e', e ∈ st.1 → e' ∈ st.1 → (∃ hh, (x, hh) ∈ e.2) →
        (∃ hh2, (x, hh2) ∈ e'.2) → e.1 = e'.1) := by
  obtain ⟨hkeys, hproj, hgnd, hgroute⟩ := hwf
  constructor
  · rintro x e he ⟨hh, hmem⟩ hh2 hmem2
    have h1 : routeOf m ks x = some e.1 := (hproj e he).2 (x, hh) hmem
    have h2 : routeOf m ks x = none := hgroute (x, hh2) hmem2
    rw [h1] at h2
    exact Option.noConfusion h2
  · rintro x e e' he he' ⟨hh, hmem⟩ ⟨hh2, hmem2⟩
    have h1 : routeOf m ks x = some e.1 := (hproj e he).2 (x, hh) hmem
    have h2 : routeOf m ks x = some e'.1 := (hproj e' he').2 (x, hh2) hmem2
    rw [h1] at h2
    exact Option.some.inj h2

/-! The claims. -/

/-- C5 (confirmed): if the workspace root does not exist at construction
time the worker is `FilesWorker(None)` and the index is permanently empty:
every `get_files` call returns the empty list immediately without blocking,
and every `update_files` call leaves the (absent) store untouched and
returns an empty mapping. -/
theorem C5_missing_root_permanently_empty (h : ByteSeq → String)
    (fs : String → Option ByteSeq) (walk : List (String × ByteSeq))
    (upd del : List String) :
    gather_files h false walk = none
    ∧ get_files none = []
    ∧ get_files_waits none = false
    ∧ update_files h fs none upd del = (none, []) :=
  ⟨rfl, rfl, rfl, rfl⟩

/-- C7 (confirmed): an incremental update whose only argument is a deleted
path that is not present in the index, run twice in a row, leaves the store
unchanged after each call and returns an empty mapping both times.  The
store hypotheses (sorted, duplicate-free paths) are the invariants every
store produced by the code satisfies (claim C8). -/
theorem C7_delete_absent_twice_noop (h : ByteSeq → String)
    (fs : String → Option ByteSeq) (w : Files) (p : String)
    (hsorted : List.Sorted fileLE w) (hnd : (w.map Prod.fst).Nodup)
    (habs : p ∉ w.map Prod.fst) :
    update_files_store h fs w [] [p] = (w, [])
    ∧ update_files_store h fs (update_files_store h fs w [] [p]).1 [] [p] = (w, []) := by
  have h1 : update_files_store h fs w [] [p] = (w, []) := by
    simp only [update_files_store, List.foldl_cons, List.foldl_nil, List.filterMap_nil]
    rw [toMapA_eq_self hnd, eraseA_eq_self habs, sortFiles_eq_of_sorted hsorted]
  exact ⟨h1, by rw [h1]; exact h1⟩

/-- C7 witness: a concrete one-record store, deleting an absent path twice. -/
theorem C7_witness :
    update_files_store hModel fsModel [("a.ts", "xx")] [] ["b.ts"] = ([("a.ts", "xx")], [])
    ∧ update_files_store hModel fsModel
        (update_files_store hModel fsModel [("a.ts", "xx")] [] ["b.ts"]).1 [] ["b.ts"]
      = ([("a.ts", "xx")], []) :=
  C7_delete_absent_twice_noop hModel fsModel [("a.ts", "xx")] "b.ts"
    (List.sorted_singleton _) (by decide) (by decide)

/-- C4 (confirmed): the mapping returned by the incremental update contains
exactly the updated paths whose content was successfully read, each mapped
to the hash of the newly read content; deleted paths (not simultaneously
updated) and failed reads are absent from it; and a path whose read failed
and that was not deleted keeps its prior record in the rebuilt store. -/
theorem C4_update_result_exact (h : ByteSeq → String) (fs : String → Option ByteSeq)
    (files : Files) (upd del : List String) :
    (∀ p hh, (p, hh) ∈ (update_files_store h fs files upd del).2 ↔
      (p ∈ upd ∧ ∃ c, fs p = some c ∧ hh = h c))
    ∧ (∀ p, p ∈ del → p ∉ upd →
        ∀ hh, (p, hh) ∉ (update_files_store h fs files upd del).2)
    ∧ (∀ p old, (files.map Prod.fst).Nodup → (p, old) ∈ files → fs p = none →
        p ∉ del → (p, old) ∈ (update_files_store h fs files upd del).1) := by
  have hsnd : (update_files_store h fs files upd del).2
      = upd.filterMap (fun q => (fs q).map (fun c => (q, h c))) := rfl
  have hiff : ∀ p hh, (p, hh) ∈ (update_files_store h fs files upd del).2 ↔
      (p ∈ upd ∧ ∃ c, fs p = some c ∧ hh = h c) := by
    intro p hh
    rw [hsnd, List.mem_filterMap]
    constructor
    · rintro ⟨a, ha, hfa⟩
      rcases Option.map_eq_some'.mp hfa with ⟨c, hc, heq⟩
      simp only [Prod.mk.injEq] at heq
      obtain ⟨rfl, rfl⟩ := heq
      exact ⟨ha, c, hc, rfl⟩
    · rintro ⟨hp, c, hc, rfl⟩
      exact ⟨p, hp, by simp [hc]⟩
  refine ⟨hiff, ?_, ?_⟩
  · intro p _ hpu hh hmem
    exact hpu ((hiff p hh).mp hmem).1
  · intro p old hnd hmem hfail hdel
    have h0 : toMapA files = files := toMapA_eq_self hnd
    have h1 : (p, old) ∈ del.foldl (fun m d => eraseA m d) (toMapA files) := by
      rw [h0]
      exact (mem_foldl_eraseA del files (p, old)).mpr ⟨hmem, hdel⟩
    have h2 : (p, old) ∈ (upd.filterMap (fun q => (fs q).map (fun c => (q, h c)))).foldl
        (fun m fh => insertA m fh.1 fh.2) (del.foldl (fun m d => eraseA m d) (toMapA files)) := by
      refine mem_foldl_insertA_of_not_key h1 ?_
      intro fh hfh
      rcases List.mem_filterMap.mp hfh with ⟨a, _, hfa⟩
      rcases Option.map_eq_some'.mp hfa with ⟨c, hc, heq⟩
      intro hfp
      rw [← heq] at hfp
      simp only [] at hfp
      rw [hfp] at hc
      rw [hfail] at hc
      exact Option.noConfusion hc
    have e1 : (update_files_store h fs files upd del).1
        = sortFiles ((upd.filterMap (fun q => (fs q).map (fun c => (q, h c)))).foldl
            (fun m fh => insertA m fh.1 fh.2)
            (del.foldl (fun m d => eraseA m d) (toMapA files))) := rfl
    rw [e1]
    exact mem_sortFiles.mpr h2

/-- C4 witness: concrete store and filesystem: `a.ts` reads fine and is
returned with its new hash, deleted `gone.ts` is absent from the result, and
`bad.ts` (whose read fails) keeps its prior record in the store. -/
theorem C4_witness :
    (("a.ts", hModel [1, 2]) ∈ (update_files_store hModel fsModel
        [("bad.ts", "old"), ("gone.ts", "g")] ["a.ts", "bad.ts"] ["gone.ts"]).2
      ↔ ("a.ts" ∈ ["a.ts", "bad.ts"]
          ∧ ∃ c, fsModel "a.ts" = some c ∧ hModel [1, 2] = hModel c))
    ∧ (∀ hh, ("gone.ts", hh) ∉ (update_files_store hModel fsModel
        [("bad.ts", "old"), ("gone.ts", "g")] ["a.ts", "bad.ts"] ["gone.ts"]).2)
    ∧ ("bad.ts", "old") ∈ (update_files_store hModel fsModel
        [("bad.ts", "old"), ("gone.ts", "g")] ["a.ts", "bad.ts"] ["gone.ts"]).1 :=
  ⟨(C4_update_result_exact hModel fsModel [("bad.ts", "old"), ("gone.ts", "g")]
      ["a.ts", "bad.ts"] ["gone.ts"]).1 "a.ts" (hModel [1, 2]),
   fun hh => (C4_update_result_exact hModel fsModel [("bad.ts", "old"), ("gone.ts", "g")]
      ["a.ts", "bad.ts"] ["gone.ts"]).2.1 "gone.ts" (by decide) (by decide) hh,
   (C4_update_result_exact hModel fsModel [("bad.ts", "old"), ("gone.ts", "g")]
      ["a.ts", "bad.ts"] ["gone.ts"]).2.2 "bad.ts" "old"
      (by decide) (by decide) (by decide) (by decide)⟩

/-- C8 (confirmed): stores are sorted with at most one record per path: the
initial population sorts the hashed walk results (duplicate-free on paths
whenever the walker enumerates each path once), every incremental update
rebuilds the store sorted and duplicate-free on paths unconditionally, and
`get_files` returns the store as is, so every snapshot inherits these
properties. -/
theorem C8_snapshots_sorted_unique :
    (∀ (h : ByteSeq → String) (rootExists : Bool) (walk : List (String × ByteSeq)) (w : Files),
      gather_files h rootExists walk = some w →
      List.Sorted fileLE w
      ∧ List.Pairwise (fun a b : String × String => a.1.data ≤ b.1.data) w
      ∧ ((walk.map Prod.fst).Nodup → (w.map Prod.fst).Nodup)
      ∧ get_files (some w) = w)
    ∧ (∀ (h : ByteSeq → String) (fs : String → Option ByteSeq) (files : Files)
        (upd del : List String),
      List.Sorted fileLE (update_files_store h fs files upd del).1
      ∧ (((update_files_store h fs files upd del).1.map Prod.fst)).Nodup) := by
  constructor
  · intro h rootExists walk w hw
    cases rootExists with
    | false => exact absurd hw (by simp [gather_files])
    | true =>
      have hw2 : w = sortFiles (walk.map (fun pc => (pc.1, h pc.2))) := by
        simpa [gather_files] using hw.symm
      subst hw2
      refine ⟨sortFiles_sorted _, ?_, ?_, ?_⟩
      · exact (sortFiles_sorted _).imp (fun hab => fileLE_imp_path_le hab)
      · intro hnd
        apply keys_sortFiles_nodup
        rw [List.map_map]
        exact hnd
      · exact List.map_id _
  · intro h fs files upd del
    have e1 : (update_files_store h fs files upd del).1
        = sortFiles ((upd.filterMap (fun q => (fs q).map (fun c => (q, h c)))).foldl
            (fun m fh => insertA m fh.1 fh.2)
            (del.foldl (fun m d => eraseA m d) (toMapA files))) := rfl
    rw [e1]
    exact ⟨sortFiles_sorted _,
      keys_sortFiles_nodup (keys_foldl_insertA_nodup
        (keys_foldl_eraseA_nodup (toMapA_keys_nodup files)))⟩

/-- C8 witness: a concrete population (two files, delivered unsorted by the
walker) and a concrete incremental update. -/
theorem C8_witness :
    (List.Sorted fileLE [("a.ts", "xx"), ("b.ts", "x")]
      ∧ List.Pairwise (fun a b : String × String => a.1.data ≤ b.1.data)
          [("a.ts", "xx"), ("b.ts", "x")]
      ∧ ((([("b.ts", [1]), ("a.ts", [1, 2])] : List (String × ByteSeq)).map Prod.fst).Nodup →
          (([("a.ts", "xx"), ("b.ts", "x")] : Files).map Prod.fst).Nodup)
      ∧ get_files (some [("a.ts", "xx"), ("b.ts", "x")]) = [("a.ts", "xx"), ("b.ts", "x")])
    ∧ (List.Sorted fileLE (update_files_store hModel fsModel [("b.ts", "x")] ["a.ts"] []).1
      ∧ (((update_files_store hModel fsModel [("b.ts", "x")] ["a.ts"] []).1.map Prod.fst)).Nodup) :=
  ⟨C8_snapshots_sorted_unique.1 hModel true [("b.ts", [1]), ("a.ts", [1, 2])]
      [("a.ts", "xx"), ("b.ts", "x")] (by decide),
   C8_snapshots_sorted_unique.2 hModel fsModel [("b.ts", "x")] ["a.ts"] []⟩

/-- C3 counterexample: the claim also asserts that reads issued after the
first population has completed never block again; but when the population
pass yields zero files the store stays empty, and a `get_files` call
arriving after the completed population finds an empty store and waits on
the condition variable again (context.rs line 77 tests only emptiness, and
the one-shot `notify_all` of line 65 has already fired, so no signal is
pending for a later waiter). -/
theorem C3_counterexample :
    (populate hModel [] { files := [], waiters := 3 }).files = []
    ∧ (populate hModel [] { files := [], waiters := 3 }).waiters = 0
    ∧ (read_enter (populate hModel [] { files := [], waiters := 3 })).2 = true := by
  decide

/-- C3 amended (corrected): every caller blocked before the first population
completes is unblocked by that single population pass even when it yields
zero files (`notify_all` wakes all waiters at once); and a read issued after
the first population completes does not block provided the population
produced at least one file — with zero files the store is still empty and
such a read blocks on the condition variable again. -/
theorem C3_population_unblocks_all :
    (∀ (h : ByteSeq → String) (walk : List (String × ByteSeq)) (s : WorkerState),
      (populate h walk s).waiters = 0)
    ∧ (∀ (h : ByteSeq → String) (walk : List (String × ByteSeq)) (s : WorkerState),
      walk ≠ [] → (read_enter (populate h walk s)).2 = false) := by
  constructor
  · intro h walk s
    rfl
  · intro h walk s hne
    have hlen : (populate h walk s).files.length ≠ 0 := by
      show (sortFiles _).length ≠ 0
      rw [(sortFiles_perm _).length_eq, List.length_append, List.length_map]
      have : walk.length ≠ 0 := fun h0 => hne (List.length_eq_zero.mp h0)
      omega
    have hlen2 : ((populate h walk s).files.length == 0) = false := by
      simpa using hlen
    simp [read_enter, hlen2]

/-- C3 witness: an empty-walk population unblocking all three waiters, and a
one-file population after which a read does not block. -/
theorem C3_witness :
    (populate hModel [] { files := [], waiters := 3 }).waiters = 0
    ∧ (read_enter (populate hModel [("a.ts", [1])] { files := [], waiters := 0 })).2 = false :=
  ⟨C3_population_unblocks_all.1 hModel [] { files := [], waiters := 3 },
   C3_population_unblocks_all.2 hModel [("a.ts", [1])] { files := [], waiters := 0 } (by decide)⟩

/-- C6 counterexample: two snapshots whose matched file sets differ — one
file renamed, content identical — yet whose aggregate digests are equal for
any hashing collaborator, because the aggregate hashes only the matched
records' digest bytes, never their paths.  This refutes the claimed "the
aggregate digest differs if the matched file set differs" direction. -/
theorem C6_counterexample :
    glob_files (fun _ => true) [("a.json", "h1")]
      ≠ glob_files (fun _ => true) [("b.json", "h1")]
    ∧ hash_files_matching_glob hModel (fun _ => true) [("a.json", "h1")]
      = hash_files_matching_glob hModel (fun _ => true) [("b.json", "h1")] :=
  ⟨by decide, rfl⟩

/-- C6 amended (corrected): `hash_files_matching_glob` returns the hash of
the concatenation, in snapshot order, of the matched records' digests; the
hashing collaborator being a pure function, two snapshots whose matched
digest sequences coincide produce the same aggregate — contrapositively, a
changed aggregate implies a changed matched digest sequence.  The claim's
converse direction fails: the aggregate ignores the matched paths (see the
counterexample) and the spec does not exclude hash collisions, so a change
of matched set or content need not change the digest. -/
theorem C6_aggregate_digest (h : ByteSeq → String) (mt : String → Bool)
    (files1 files2 : List FileData)
    (hsame : (glob_files mt files1).map Prod.snd = (glob_files mt files2).map Prod.snd) :
    hash_files_matching_glob h mt files1
      = h (((glob_files mt files1).map (fun f => strBytes f.2)).flatten)
    ∧ hash_files_matching_glob h mt files1 = hash_files_matching_glob h mt files2 := by
  refine ⟨rfl, ?_⟩
  unfold hash_files_matching_glob
  have e1 : ∀ (l : List FileData),
      l.map (fun f => strBytes f.2) = (l.map Prod.snd).map strBytes := by
    intro l
    rw [List.map_map]
    rfl
  rw [e1, e1, hsame]

/-- C6 witness: a concrete matcher and snapshots with equal matched digest
sequences. -/
theorem C6_witness :
    (hash_files_matching_glob hModel (fun f => decide (f = "a.json"))
        [("a.json", "h1"), ("c.ts", "h2")]
      = hModel (((glob_files (fun f => decide (f = "a.json"))
          [("a.json", "h1"), ("c.ts", "h2")]).map (fun f => strBytes f.2)).flatten))
    ∧ hash_files_matching_glob hModel (fun f => decide (f = "a.json"))
        [("a.json", "h1"), ("c.ts", "h2")]
      = hash_files_matching_glob hModel (fun f => decide (f = "a.json")) [("a.json", "h1")] :=
  C6_aggregate_digest hModel (fun f => decide (f = "a.json"))
    [("a.json", "h1"), ("c.ts", "h2")] [("a.json", "h1")] (by decide)

/-- C10 (confirmed): when no snapshot record matches the globs after
exclusions, `hash_files_matching_glob` hashes the empty byte concatenation:
the result is the collaborator's digest of the empty byte sequence — one
fixed, well-defined string, not an error, not an absent value. -/
theorem C10_empty_match_digest (h : ByteSeq → String) (mt : String → Bool)
    (files : List FileData) (hnone : glob_files mt files = []) :
    hash_files_matching_glob h mt files = h [] := by
  unfold hash_files_matching_glob
  rw [hnone]
  rfl

/-- C10 witness: a matcher matching nothing on a one-record snapshot. -/
theorem C10_witness :
    hash_files_matching_glob hModel (fun _ => false) [("a.ts", "h1")] = hModel [] :=
  C10_empty_match_digest hModel (fun _ => false) [("a.ts", "h1")] (by decide)

/-- C9 (confirmed): `update_project_files` never modifies the caller's prior
`project_files` and `global_files`: it reads them through their `External`
references, works on copies (`clone()` on line 243, the collect on lines
244-247), and only allocates fresh cells for the results, so after the call
every pre-existing heap cell — in particular the caller's prior partition —
reads exactly as before, and the returned references are fresh. -/
theorem C9_externals_unmodified (hp hp2 : Heap) (pfRef gfRef : Nat)
    (m : List (String × String)) (upd : List (String × String)) (del : List String)
    (snapshot : List FileData) (refs : Nat × Nat × Nat) (r : ProjectFiles × List FileData)
    (hcall : update_project_files_ext hp pfRef gfRef m upd del snapshot = some (hp2, refs, r)) :
    readProjMap hp2 pfRef = readProjMap hp pfRef
    ∧ readFileList hp2 gfRef = readFileList hp gfRef
    ∧ (∀ i, i < hp.length → hp2.get? i = hp.get? i)
    ∧ hp.length ≤ refs.1 ∧ hp.length ≤ refs.2.1 ∧ hp.length ≤ refs.2.2 := by
  unfold update_project_files_ext at hcall
  rcases e1 : readProjMap hp pfRef with _ | pf
  · rw [e1] at hcall
    exact absurd hcall (by simp)
  rcases e2 : readFileList hp gfRef with _ | gf
  · rw [e1, e2] at hcall
    exact absurd hcall (by simp)
  rw [e1, e2] at hcall
  simp only [Option.some.injEq, Prod.mk.injEq] at hcall
  obtain ⟨hhp2, hrefs, hrv⟩ := hcall
  subst hhp2
  subst hrefs
  have hb1 : pfRef < hp.length := by
    unfold readProjMap at e1
    rcases hg : hp.get? pfRef with _ | hv
    · rw [hg] at e1
      exact absurd e1 (by simp)
    · exact (List.get?_eq_some.mp hg).1
  have hb2 : gfRef < hp.length := by
    unfold readFileList at e2
    rcases hg : hp.get? gfRef with _ | hv
    · rw [hg] at e2
      exact absurd e2 (by simp)
    · exact (List.get?_eq_some.mp hg).1
  have hget : ∀ i, i < hp.length →
      (hp ++ [HeapVal.projMap (update_project_files m pf gf upd del).1,
        HeapVal.fileList (update_project_files m pf gf upd del).2,
        HeapVal.fileList snapshot]).get? i = hp.get? i := by
    intro i hi
    rw [List.get?_eq_getElem?, List.get?_eq_getElem?, List.getElem?_append_left hi]
  refine ⟨?_, ?_, hget, by simp, by simp, by simp⟩
  · unfold readProjMap
    rw [hget pfRef hb1]
    exact e1
  · unfold readFileList
    rw [hget gfRef hb2]
    exact e2

/-- C9 witness: a two-cell heap holding the caller's partition; the call
leaves both cells intact and hands back references past the old heap. -/
theorem C9_witness :
    readProjMap [HeapVal.projMap [("foo", [("libs/foo/x.ts", "h0")])],
        HeapVal.fileList [("g.ts", "h1")],
        HeapVal.projMap [("foo", [("libs/foo/x.ts", "h0")])],
        HeapVal.fileList [("g.ts", "h1")], HeapVal.fileList [("s.ts", "h2")]] 0
      = readProjMap [HeapVal.projMap [("foo", [("libs/foo/x.ts", "h0")])],
          HeapVal.fileList [("g.ts", "h1")]] 0
    ∧ readFileList [HeapVal.projMap [("foo", [("libs/foo/x.ts", "h0")])],
        HeapVal.fileList [("g.ts", "h1")],
        HeapVal.projMap [("foo", [("libs/foo/x.ts", "h0")])],
        HeapVal.fileList [("g.ts", "h1")], HeapVal.fileList [("s.ts", "h2")]] 1
      = readFileList [HeapVal.projMap [("foo", [("libs/foo/x.ts", "h0")])],
          HeapVal.fileList [("g.ts", "h1")]] 1
    ∧ (∀ i, i < 2 →
        ([HeapVal.projMap [("foo", [("libs/foo/x.ts", "h0")])],
          HeapVal.fileList [("g.ts", "h1")],
          HeapVal.projMap [("foo", [("libs/foo/x.ts", "h0")])],
          HeapVal.fileList [("g.ts", "h1")], HeapVal.fileList [("s.ts", "h2")]] : Heap).get? i
          = ([HeapVal.projMap [("foo", [("libs/foo/x.ts", "h0")])],
              HeapVal.fileList [("g.ts", "h1")]] : Heap).get? i)
    ∧ 2 ≤ 2 ∧ 2 ≤ 3 ∧ 2 ≤ 4 :=
  C9_externals_unmodified
    [HeapVal.projMap [("foo", [("libs/foo/x.ts", "h0")])], HeapVal.fileList [("g.ts", "h1")]]
    [HeapVal.projMap [("foo", [("libs/foo/x.ts", "h0")])], HeapVal.fileList [("g.ts", "h1")],
      HeapVal.projMap [("foo", [("libs/foo/x.ts", "h0")])],
      HeapVal.fileList [("g.ts", "h1")], HeapVal.fileList [("s.ts", "h2")]]
    0 1 [("libs/foo", "foo")] [] [] [("s.ts", "h2")] (2, 3, 4)
    ([("foo", [("libs/foo/x.ts", "h0")])], [("g.ts", "h1")]) (by rfl)

/-- C1 counterexample: in the claim's own scenario — no prior project files,
i.e. an empty ProjectFiles map — the updated pair whose path is owned by
project `foo` under longest-prefix match does NOT reach any project file
list: `get_mut("foo")` fails on the empty map (context.rs line 257) and the
pair falls through to the global bucket, so the call yields empty
ProjectFiles and both pairs in GlobalFiles, not
`ProjectFiles = {"foo": [("libs/foo/x.ts","h1")]}`. -/
theorem C1_counterexample :
    find_project_for_path "libs/foo/x.ts" [("libs/foo", "foo")] = some "foo"
    ∧ (update_project_files [("libs/foo", "foo")] [] []
        [("libs/foo/x.ts", "h1"), ("apps/bar/y.ts", "h2")] []).1 = []
    ∧ (update_project_files [("libs/foo", "foo")] [] []
        [("libs/foo/x.ts", "h1"), ("apps/bar/y.ts", "h2")] []).2
      = [("libs/foo/x.ts", "h1"), ("apps/bar/y.ts", "h2")] := by
  decide

/-- C1 amended (corrected): an updated `(path, hash)` pair whose path is
owned by a project under longest-prefix match ends up in that project's file
list — hash overwritten if the path is already there, a record appended
otherwise — provided that project has an entry in the prior ProjectFiles map
(and the path is not simultaneously deleted); when the entry is missing, in
particular when there are no prior project files at all, `get_mut` fails and
the pair goes to the global bucket instead.  The claim's scenario therefore
holds with prior `ProjectFiles = {"foo": []}`: the result is
`ProjectFiles = {"foo": [("libs/foo/x.ts","h1")]}` and
`GlobalFiles = [("apps/bar/y.ts","h2")]`. -/
theorem C1_owned_update_reaches_project :
    (∀ (m : List (String × String)) (pf : ProjectFiles) (gf : List FileData)
        (upd : List (String × String)) (del : List String) (f hh p : String),
      (upd.map Prod.fst).Nodup → (f, hh) ∈ upd →
      find_project_for_path f m = some p → containsA pf p = true → f ∉ del →
      ∃ fl, (p, fl) ∈ (update_project_files m pf gf upd del).1 ∧ (f, hh) ∈ fl)
    ∧ update_project_files [("libs/foo", "foo")] [("foo", [])] []
        [("libs/foo/x.ts", "h1"), ("apps/bar/y.ts", "h2")] []
      = ([("foo", [("libs/foo/x.ts", "h1")])], [("apps/bar/y.ts", "h2")]) := by
  constructor
  · intro m pf gf upd del f hh p hnd hmem hfp hcont hfdel
    obtain ⟨l1, l2, rfl⟩ := List.append_of_mem hmem
    have hf2 : f ∉ l2.map Prod.fst := by
      rw [List.map_append, List.map_cons] at hnd
      exact (List.nodup_cons.mp hnd.of_append_right).1
    have hres : (update_project_files m pf gf (l1 ++ (f, hh) :: l2) del).1
        = (del.foldl (applyDeletedFile m)
            ((l1 ++ (f, hh) :: l2).foldl (applyUpdatedFile m)
              (pf, gf.foldl (fun g fd => insertA g fd.1 fd.2) []))).1 := rfl
    rw [hres, List.foldl_append, List.foldl_cons]
    have hkeys1 : ((l1.foldl (applyUpdatedFile m)
        (pf, gf.foldl (fun g fd => insertA g fd.1 fd.2) [])).1).map Prod.fst
        = pf.map Prod.fst := by
      refine @foldl_preserve (ProjectFiles × Files) (String × String)
        (fun st => st.1.map Prod.fst = pf.map Prod.fst) (applyUpdatedFile m) l1 ?_ _ rfl
      intro a b _ hb
      rw [keys_applyUpdatedFile, hb]
    have hcont1 : containsA (l1.foldl (applyUpdatedFile m)
        (pf, gf.foldl (fun g fd => insertA g fd.1 fd.2) [])).1 p = true := by
      rw [containsA_iff_mem_keys, hkeys1]
      exact containsA_iff_mem_keys.mp hcont
    have hstep := @projEntry_establish m _ f hh p hfp hcont1
    refine @foldl_preserve (ProjectFiles × Files) String
      (fun st => ∃ fl, (p, fl) ∈ st.1 ∧ (f, hh) ∈ fl)
      (applyDeletedFile m) del ?_ _ ?_
    · intro a d hd hex
      exact projEntry_preserve_delete hex (fun hdf => hfdel (hdf ▸ hd))
    · refine @foldl_preserve (ProjectFiles × Files) (String × String)
        (fun st => ∃ fl, (p, fl) ∈ st.1 ∧ (f, hh) ∈ fl)
        (applyUpdatedFile m) l2 ?_ _ hstep
      intro a u hu hex
      exact projEntry_preserve_update hex
        (fun huf => hf2 (huf ▸ List.mem_map_of_mem Prod.fst hu))
  · decide

/-- C1 witness: the amended general statement applied at the corrected
scenario, where project `foo` has a (still empty) entry in the prior map. -/
theorem C1_witness :
    ∃ fl, ("foo", fl) ∈ (update_project_files [("libs/foo", "foo")] [("foo", [])] []
        [("libs/foo/x.ts", "h1"), ("apps/bar/y.ts", "h2")] []).1
      ∧ ("libs/foo/x.ts", "h1") ∈ fl :=
  C1_owned_update_reaches_project.1 [("libs/foo", "foo")] [("foo", [])] []
    [("libs/foo/x.ts", "h1"), ("apps/bar/y.ts", "h2")] [] "libs/foo/x.ts" "h1" "foo"
    (by decide) (by decide) (by decide) (by decide) (by decide)

/-- C2 counterexample: `update_project_files` passes an ill-formed prior
partition through unchanged when the delta is empty, producing a FileMap in
which the same path sits both in project `foo`'s list and in the global
files; and the partition never consults the snapshot — a call whose
refreshed snapshot holds only `s.ts` produces a partition whose only path is
`libs/foo/x.ts`, so the union of bucket paths need not equal the snapshot's
paths. -/
theorem C2_counterexample :
    (("foo", [("libs/foo/x.ts", "h0")]) ∈ (update_project_files [("libs/foo", "foo")]
        [("foo", [("libs/foo/x.ts", "h0")])] [("libs/foo/x.ts", "h0")] [] []).1
      ∧ ("libs/foo/x.ts", "h0") ∈ (update_project_files [("libs/foo", "foo")]
        [("foo", [("libs/foo/x.ts", "h0")])] [("libs/foo/x.ts", "h0")] [] []).2)
    ∧ update_project_files_ext
        [HeapVal.projMap [("foo", [("libs/foo/x.ts", "h0")])],
         HeapVal.fileList [("libs/foo/x.ts", "h0")]] 0 1
        [("libs/foo", "foo")] [] [] [("s.ts", "hs")]
      = some ([HeapVal.projMap [("foo", [("libs/foo/x.ts", "h0")])],
          HeapVal.fileList [("libs/foo/x.ts", "h0")],
          HeapVal.projMap [("foo", [("libs/foo/x.ts", "h0")])],
          HeapVal.fileList [("libs/foo/x.ts", "h0")], HeapVal.fileList [("s.ts", "hs")]],
          (2, 3, 4),
          ([("foo", [("libs/foo/x.ts", "h0")])], [("libs/foo/x.ts", "h0")])) :=
  ⟨⟨by decide, by decide⟩, by rfl⟩

/-- C2 amended (corrected): the partition `update_project_files` produces is
computed from the prior partition and the delta only — the snapshot is
bundled alongside but never consulted, and an ill-formed prior partition
passes through (see the counterexample).  For every prior partition that is
well-formed for the mapping (each project's list duplicate-free and holding
only paths routed to that project, globals duplicate-free and holding only
globally-routed paths), the result is well-formed again, each path lies in
at most one bucket — never both in a project list and in the globals, and
never in two different projects' lists — and the result's path set is
exactly (prior paths ∪ updated paths) minus deleted paths. -/
theorem C2_partition_disjoint_union (m : List (String × String)) (ks : List String)
    (pf : ProjectFiles) (gf : List FileData) (upd : List (String × String))
    (del : List String) (hwf : WFState m ks (pf, gf)) :
    WFState m ks (update_project_files m pf gf upd del)
    ∧ (∀ x e, e ∈ (update_project_files m pf gf upd del).1 →
        (∃ hh, (x, hh) ∈ e.2) → ∀ hh2, (x, hh2) ∉ (update_project_files m pf gf upd del).2)
    ∧ (∀ x e e', e ∈ (update_project_files m pf gf upd del).1 →
        e' ∈ (update_project_files m pf gf upd del).1 →
        (∃ hh, (x, hh) ∈ e.2) → (∃ hh2, (x, hh2) ∈ e'.2) → e.1 = e'.1)
    ∧ (∀ x, InPart (update_project_files m pf gf upd del) x
        ↔ ((InPart (pf, gf) x ∨ x ∈ upd.map Prod.fst) ∧ x ∉ del)) := by
  have hg0 : gf.foldl (fun g fd => insertA g fd.1 fd.2) [] = gf :=
    toMapA_eq_self hwf.2.2.1
  have hr : update_project_files m pf gf upd del
      = del.foldl (applyDeletedFile m) (upd.foldl (applyUpdatedFile m) (pf, gf)) := by
    show ((del.foldl (applyDeletedFile m) (upd.foldl (applyUpdatedFile m)
        (pf, gf.foldl (fun g fd => insertA g fd.1 fd.2) []))).1,
      (del.foldl (applyDeletedFile m) (upd.foldl (applyUpdatedFile m)
        (pf, gf.foldl (fun g fd => insertA g fd.1 fd.2) []))).2) = _
    rw [hg0]
  have hwfu : WFState m ks (upd.foldl (applyUpdatedFile m) (pf, gf)) :=
    WF_foldl_update upd hwf
  have hwfd : WFState m ks
      (del.foldl (applyDeletedFile m) (upd.foldl (applyUpdatedFile m) (pf, gf))) :=
    WF_foldl_delete del hwfu
  rw [hr]
  refine ⟨hwfd, (WF_disjoint hwfd).1, (WF_disjoint hwfd).2, ?_⟩
  intro x
  rw [InPart_foldl_delete del _ x hwfu, InPart_foldl_update upd (pf, gf) x]

/-- C2 witness: a concrete well-formed partition (project `p` rooted at `a`,
one global file) with one update and one delete. -/
theorem C2_witness :
    WFState [("a", "p")] ["p"]
      (update_project_files [("a", "p")] [("p", [("a/x", "h0")])] [("b/y", "hg")]
        [("a/z", "h2")] ["b/y"])
    ∧ (∀ x e, e ∈ (update_project_files [("a", "p")] [("p", [("a/x", "h0")])] [("b/y", "hg")]
          [("a/z", "h2")] ["b/y"]).1 → (∃ hh, (x, hh) ∈ e.2) →
        ∀ hh2, (x, hh2) ∉ (update_project_files [("a", "p")] [("p", [("a/x", "h0")])]
          [("b/y", "hg")] [("a/z", "h2")] ["b/y"]).2)
    ∧ (∀ x e e', e ∈ (update_project_files [("a", "p")] [("p", [("a/x", "h0")])]
          [("b/y", "hg")] [("a/z", "h2")] ["b/y"]).1 →
        e' ∈ (update_project_files [("a", "p")] [("p", [("a/x", "h0")])]
          [("b/y", "hg")] [("a/z", "h2")] ["b/y"]).1 →
        (∃ hh, (x, hh) ∈ e.2) → (∃ hh2, (x, hh2) ∈ e'.2) → e.1 = e'.1)
    ∧ (∀ x, InPart (update_project_files [("a", "p")] [("p", [("a/x", "h0")])]
          [("b/y", "hg")] [("a/z", "h2")] ["b/y"]) x
        ↔ ((InPart ([("p", [("a/x", "h0")])], [("b/y", "hg")]) x
            ∨ x ∈ ([("a/z", "h2")].map Prod.fst)) ∧ x ∉ ["b/y"])) :=
  C2_partition_disjoint_union [("a", "p")] ["p"] [("p", [("a/x", "h0")])] [("b/y", "hg")]
    [("a/z", "h2")] ["b/y"] (by unfold WFState; decide)

end Nx
